import Mathlib

/-!
# Verification of the ratio-calc rational-expression evaluator

A shallow embedding of `src/lib.rs`: the `Rational` pair type with its
trial-division GCD normalization, the operator overloads, and the two-phase
expression evaluator (`run_expr`).  Rust `i64` arithmetic is modelled on
unbounded `Int`; Rust's `/` and `%` on `i64` truncate toward zero, so they are
rendered as `Int.tdiv` and `Int.tmod`.  A Rust panic is modelled as `none` of
an `Option`; recoverable errors are the `Error` enum inside `Except`.
-/

namespace RatioCalc

/-- The error enum of `lib.rs` (`Error`): `DivisionByZero`,
`InvalidSyntax(usize)`, `InvalidExpr`. -/
inductive Error where
  | divisionByZero : Error
  | invalidSyntax : Nat → Error
  | invalidExpr : Error
deriving Repr, DecidableEq

/-- `struct Rational(i64, i64)`: field `.0` is `num`, field `.1` is `den`. -/
structure Rational where
  num : Int
  den : Int
deriving Repr, DecidableEq

/-- Primality by full trial division.  The source's `primes()` generator
yields exactly the primes in ascending order (first cached prime 2, each next
candidate kept when no cached prime divides it), so the `for i in primes()`
loop of `gcd` is embedded as a scan over all candidates that acts only on
those satisfying this predicate. -/
def isPrimeB (n : Nat) : Bool :=
  decide (2 ≤ n) && (List.range (n - 2)).all fun d => !(decide ((d + 2) ∣ n))

/-- The inner `while lowest % i == 0 && highest % i == 0` loop of `gcd`:
divides the common factor `i` out of both `lowest` and `highest`,
multiplying it into the accumulator.  `fuel` bounds the iterations; callers
pass `fuel = lowest`, which always suffices since `lowest` at least halves
each round. -/
def divOut : Nat → Nat → Nat → Nat → Nat → Nat × Nat × Nat
  | 0, _, l, h, acc => (l, h, acc)
  | fuel + 1, i, l, h, acc =>
    if l % i = 0 ∧ h % i = 0 then divOut fuel i (l / i) (h / i) (acc * i)
    else (l, h, acc)

/-- The `for i in primes()` loop of `gcd`: `c` is the current candidate
(action happens only at primes, mirroring the prime iterator), the loop
breaks — returning the accumulator — at the first prime `c` with
`lowest / c < 1`.  `fuel` bounds the candidates scanned; `gcd` passes enough
fuel that every prime `≤ lowest` is reached, so exhaustion returns the same
accumulator the break would. -/
def gcdAux : Nat → Nat → Nat → Nat → Nat → Nat × Nat × Nat
  | 0, _, l, h, acc => (l, h, acc)
  | fuel + 1, c, l, h, acc =>
    if isPrimeB c then
      if l / c < 1 then (l, h, acc)
      else
        let r := divOut l c l h acc
        gcdAux fuel (c + 1) r.1 r.2.1 r.2.2
    else gcdAux fuel (c + 1) l h acc

/-- `fn gcd(a: u64, b: u64) -> u64` of `lib.rs`: trial division by ascending
primes, starting from `lowest = a.min(b)`, `highest = a.max(b)`, `gcd = 1`. -/
def gcd (a b : Nat) : Nat :=
  (gcdAux (min a b + 2) 2 (min a b) (max a b) 1).2.2

/-- `Rational::normalize`: divides both components by
`gcd(self.0.unsigned_abs(), self.1.unsigned_abs())` (Rust `i64 /` truncates,
hence `Int.tdiv`). -/
def normalize (r : Rational) : Rational :=
  let g : Int := (gcd r.num.natAbs r.den.natAbs : Int)
  ⟨r.num.tdiv g, r.den.tdiv g⟩

/-- `impl Add for Rational`:
`Self(self.0 * rhs.1 + rhs.0 * self.1, self.1 * rhs.1).normalize()`. -/
def add (a b : Rational) : Rational :=
  normalize ⟨a.num * b.den + b.num * a.den, a.den * b.den⟩

/-- `impl Sub for Rational`. -/
def sub (a b : Rational) : Rational :=
  normalize ⟨a.num * b.den - b.num * a.den, a.den * b.den⟩

/-- `impl Mul for Rational`. -/
def mul (a b : Rational) : Rational :=
  normalize ⟨a.num * b.num, a.den * b.den⟩

/-- `impl Div for Rational`: panics (`none`) when `rhs.1 == 0`, otherwise
`Self(self.0 * rhs.1, self.1 * rhs.0).normalize()`. -/
def ratDiv (a b : Rational) : Option Rational :=
  if b.den = 0 then none
  else some (normalize ⟨a.num * b.den, a.den * b.num⟩)

/-- `impl Div<$i> for Rational` (the plain-integer right-hand-side overload):
`Self(self.0, self.1 * rhs as i64).normalize()` — no check, no panic. -/
def divInt (r : Rational) (i : Int) : Rational :=
  normalize ⟨r.num, r.den * i⟩

/-- `Rational::checked_div`: `Err(DivisionByZero)` when `other.0 == 0`, else
`Ok(self / other)` — which may still panic through `ratDiv`. -/
def checked_div (a b : Rational) : Option (Except Error Rational) :=
  if b.num = 0 then some (.error .divisionByZero)
  else (ratDiv a b).map .ok

/-- `impl AddAssign<$i> for Rational` with an unsigned digit value:
`Self(self.0 + rhs as i64 * self.1, self.1).normalize()`. -/
def addAssignNat (r : Rational) (d : Nat) : Rational :=
  normalize ⟨r.num + (d : Int) * r.den, r.den⟩

/-- `impl Debug for Rational` (also `Display`): integer when `den = 1`,
negated integer when `den = -1`, otherwise the concatenation of the
truncating quotient, the truncating remainder, `/`, and the denominator. -/
def display (r : Rational) : String :=
  if r.den = 1 then toString r.num
  else if r.den = -1 then toString (-r.num)
  else toString (r.num.tdiv r.den) ++ toString (r.num.tmod r.den)
    ++ "/" ++ toString r.den

/-- The `Op` enum. -/
inductive Op where
  | star : Op
  | plus : Op
  | min : Op
  | slash : Op
deriving Repr, DecidableEq

/-- `impl From<char> for Op` (only ever reached with one of the four
operator characters). -/
def opOfChar (c : Char) : Op :=
  if c = '+' then .plus
  else if c = '-' then .min
  else if c = '*' then .star
  else .slash

/-- `Op::compute`: `checked_div` for `/`, the total operators otherwise. -/
def Op.compute : Op → Rational → Rational → Option (Except Error Rational)
  | .star, a, b => some (.ok (mul a b))
  | .plus, a, b => some (.ok (add a b))
  | .min, a, b => some (.ok (sub a b))
  | .slash, a, b => checked_div a b

/-- `OP_PRECEDENCE`: `&[&[Slash, Star], &[Plus, Min]]`. -/
def OP_PRECEDENCE : List (List Op) :=
  [[Op.slash, Op.star], [Op.plus, Op.min]]

/-- Phase 1 of `Rational::run_expr`: the tokenizing scan.  `cur` is the
optional in-progress accumulator; a digit is *added* into it
(`*cur.get_or_insert_default() += digit`), an operator character pushes the
pending accumulator (when present) and the mapped `Op`, a space is skipped,
anything else is `InvalidSyntax(index)`.  At the end, a missing accumulator
is `InvalidExpr`, otherwise it is pushed as the final operand. -/
def tokenize : List Char → Nat → Option Rational → List Rational → List Op →
    Except Error (List Rational × List Op)
  | [], _, cur, parts, ops =>
    match cur with
    | none => .error .invalidExpr
    | some last => .ok (parts ++ [last], ops)
  | c :: cs, index, cur, parts, ops =>
    if c.isDigit then
      tokenize cs (index + 1)
        (some (addAssignNat (cur.getD ⟨0, 1⟩) (c.toNat - '0'.toNat))) parts ops
    else if c = '+' ∨ c = '-' ∨ c = '*' ∨ c = '/' then
      tokenize cs (index + 1) none (parts ++ cur.toList) (ops ++ [opOfChar c])
    else if c = ' ' then
      tokenize cs (index + 1) cur parts ops
    else .error (.invalidSyntax index)

/-- One precedence tier of phase 2: the `while index < ops.len()` loop.
When `ops[index]` belongs to the tier, the operator and its left operand are
removed and the computed result replaces the right operand in place;
otherwise the index advances.  Out-of-range operand accesses
(`parts.remove(index)`, `parts[index]`) are the Rust panics, modelled as
`none`.  `fuel` bounds the iterations; `runTiers` passes `ops.length + 1`,
which suffices since every iteration shrinks `ops.length - index`. -/
def runTier (tier : List Op) :
    Nat → Nat → List Op → List Rational →
    Option (Except Error (List Op × List Rational))
  | 0, _, ops, parts => some (.ok (ops, parts))
  | fuel + 1, index, ops, parts =>
    if h : index < ops.length then
      if ops[index] ∈ tier then
        let op := ops[index]
        if h2 : index < parts.length then
          let a := parts[index]
          let rest := parts.eraseIdx index
          if h3 : index < rest.length then
            match op.compute a rest[index] with
            | none => none
            | some (.error e) => some (.error e)
            | some (.ok v) =>
              runTier tier fuel index (ops.eraseIdx index) (rest.set index v)
          else none
        else none
      else runTier tier fuel (index + 1) ops parts
    else some (.ok (ops, parts))

/-- The `for cur_ops in OP_PRECEDENCE` loop of phase 2. -/
def runTiers : List (List Op) → List Op → List Rational →
    Option (Except Error (List Op × List Rational))
  | [], ops, parts => some (.ok (ops, parts))
  | tier :: rest, ops, parts =>
    match runTier tier (ops.length + 1) 0 ops parts with
    | none => none
    | some (.error e) => some (.error e)
    | some (.ok (ops2, parts2)) => runTiers rest ops2 parts2

/-- `Rational::run_expr`: tokenize, reduce both precedence tiers, return
`parts[0]` (a panic, `none`, when no operand is left). -/
def run_expr (expr : List Char) : Option (Except Error Rational) :=
  match tokenize expr 0 none [] [] with
  | .error e => some (.error e)
  | .ok (parts, ops) =>
    match runTiers OP_PRECEDENCE ops parts with
    | none => none
    | some (.error e) => some (.error e)
    | some (.ok (_, parts2)) =>
      match parts2 with
      | [] => none
      | p :: _ => some (.ok p)

/-! ## Lemmas about the trial-division `gcd` -/

theorem isPrimeB_two_le {n : Nat} (h : isPrimeB n = true) : 2 ≤ n := by
  simp only [isPrimeB, Bool.and_eq_true, decide_eq_true_eq] at h
  exact h.1

theorem isPrimeB_of_prime {p : Nat} (hp : Nat.Prime p) : isPrimeB p = true := by
  simp only [isPrimeB, Bool.and_eq_true, decide_eq_true_eq, List.all_eq_true,
    List.mem_range, Bool.not_eq_true', decide_eq_false_iff_not]
  refine ⟨hp.two_le, fun d hd hdvd => ?_⟩
  have hlt : d + 2 < p := by omega
  have := (Nat.prime_def_lt.mp hp).2 (d + 2) hlt hdvd
  omega

theorem divOut_inv (i : Nat) : ∀ fuel l h acc,
    (divOut fuel i l h acc).1 * (divOut fuel i l h acc).2.2 = l * acc ∧
    (divOut fuel i l h acc).2.1 * (divOut fuel i l h acc).2.2 = h * acc := by
  intro fuel
  induction fuel with
  | zero => intro l h acc; simp [divOut]
  | succ f ih =>
    intro l h acc
    simp only [divOut]
    split
    · rename_i hc
      have hl : i ∣ l := Nat.dvd_of_mod_eq_zero hc.1
      have hh : i ∣ h := Nat.dvd_of_mod_eq_zero hc.2
      have hrec := ih (l / i) (h / i) (acc * i)
      constructor
      · rw [hrec.1, show l / i * (acc * i) = l / i * i * acc by ring,
          Nat.div_mul_cancel hl]
      · rw [hrec.2, show h / i * (acc * i) = h / i * i * acc by ring,
          Nat.div_mul_cancel hh]
    · exact ⟨rfl, rfl⟩

theorem divOut_one_le_acc {i : Nat} (h2 : 2 ≤ i) : ∀ fuel l h acc,
    1 ≤ acc → 1 ≤ (divOut fuel i l h acc).2.2 := by
  intro fuel
  induction fuel with
  | zero => intro l h acc hacc; simpa [divOut] using hacc
  | succ f ih =>
    intro l h acc hacc
    simp only [divOut]
    split
    · exact ih _ _ _ (Nat.mul_pos hacc (by omega))
    · exact hacc

theorem divOut_one_le_l {i : Nat} (h2 : 2 ≤ i) : ∀ fuel l h acc,
    1 ≤ l → 1 ≤ (divOut fuel i l h acc).1 := by
  intro fuel
  induction fuel with
  | zero => intro l h acc hl; simpa [divOut] using hl
  | succ f ih =>
    intro l h acc hl
    simp only [divOut]
    split
    · rename_i hc
      have hdl : i ∣ l := Nat.dvd_of_mod_eq_zero hc.1
      have : i ≤ l := Nat.le_of_dvd hl hdl
      exact ih _ _ _ ((Nat.one_le_div_iff (by omega)).mpr this)
    · exact hl

theorem divOut_dvd (i : Nat) : ∀ fuel l h acc,
    (divOut fuel i l h acc).1 ∣ l ∧ (divOut fuel i l h acc).2.1 ∣ h := by
  intro fuel
  induction fuel with
  | zero => intro l h acc; simp [divOut]
  | succ f ih =>
    intro l h acc
    simp only [divOut]
    split
    · rename_i hc
      have hl : i ∣ l := Nat.dvd_of_mod_eq_zero hc.1
      have hh : i ∣ h := Nat.dvd_of_mod_eq_zero hc.2
      have hrec := ih (l / i) (h / i) (acc * i)
      exact ⟨hrec.1.trans ⟨i, (Nat.div_mul_cancel hl).symm⟩,
        hrec.2.trans ⟨i, (Nat.div_mul_cancel hh).symm⟩⟩
    · exact ⟨dvd_rfl, dvd_rfl⟩

theorem divOut_post {i : Nat} (h2 : 2 ≤ i) : ∀ fuel l h acc,
    1 ≤ l → l ≤ fuel →
    ¬((divOut fuel i l h acc).1 % i = 0 ∧ (divOut fuel i l h acc).2.1 % i = 0) := by
  intro fuel
  induction fuel with
  | zero => intro l h acc hl hf; omega
  | succ f ih =>
    intro l h acc hl hf
    simp only [divOut]
    split
    · rename_i hc
      have hdl : i ∣ l := Nat.dvd_of_mod_eq_zero hc.1
      have hle : i ≤ l := Nat.le_of_dvd hl hdl
      have hlt : l / i < l := Nat.div_lt_self hl (by omega)
      exact ih (l / i) (h / i) (acc * i)
        ((Nat.one_le_div_iff (by omega)).mpr hle) (by omega)
    · rename_i hc
      simpa using hc

theorem gcdAux_inv : ∀ fuel c l h acc,
    (gcdAux fuel c l h acc).1 * (gcdAux fuel c l h acc).2.2 = l * acc ∧
    (gcdAux fuel c l h acc).2.1 * (gcdAux fuel c l h acc).2.2 = h * acc := by
  intro fuel
  induction fuel with
  | zero => intro c l h acc; simp [gcdAux]
  | succ f ih =>
    intro c l h acc
    simp only [gcdAux]
    split
    · split
      · exact ⟨rfl, rfl⟩
      · have hdo := divOut_inv c l l h acc
        have hrec := ih (c + 1) (divOut l c l h acc).1 (divOut l c l h acc).2.1
          (divOut l c l h acc).2.2
        exact ⟨hrec.1.trans hdo.1, hrec.2.trans hdo.2⟩
    · exact ih (c + 1) l h acc

theorem gcdAux_one_le_acc : ∀ fuel c l h acc, 2 ≤ c → 1 ≤ acc →
    1 ≤ (gcdAux fuel c l h acc).2.2 := by
  intro fuel
  induction fuel with
  | zero => intro c l h acc _ hacc; simpa [gcdAux] using hacc
  | succ f ih =>
    intro c l h acc hc hacc
    simp only [gcdAux]
    split
    · split
      · exact hacc
      · exact ih (c + 1) _ _ _ (by omega) (divOut_one_le_acc hc l l h acc hacc)
    · exact ih (c + 1) l h acc (by omega) hacc

theorem gcdAux_coprime : ∀ fuel c l h acc, 2 ≤ c → 1 ≤ l → l < c + fuel →
    (∀ p, Nat.Prime p → p < c → ¬(p ∣ l ∧ p ∣ h)) →
    Nat.Coprime (gcdAux fuel c l h acc).1 (gcdAux fuel c l h acc).2.1 := by
  intro fuel
  induction fuel with
  | zero =>
    intro c l h acc hc hl hfuel hnp
    simp only [gcdAux]
    by_contra hne
    obtain ⟨p, hp, hpd⟩ := Nat.exists_prime_and_dvd hne
    have hpl : p ∣ l := hpd.trans (Nat.gcd_dvd_left l h)
    have hph : p ∣ h := hpd.trans (Nat.gcd_dvd_right l h)
    exact hnp p hp (by have := Nat.le_of_dvd hl hpl; omega) ⟨hpl, hph⟩
  | succ f ih =>
    intro c l h acc hc hl hfuel hnp
    simp only [gcdAux]
    split
    · rename_i hprime
      split
      · rename_i hbreak
        have hlc : l < c := by
          rcases Nat.lt_or_ge l c with h1 | h1
          · exact h1
          · exact absurd ((Nat.one_le_div_iff (by omega)).mpr h1) (by omega)
        by_contra hne
        obtain ⟨p, hp, hpd⟩ := Nat.exists_prime_and_dvd hne
        have hpl : p ∣ l := hpd.trans (Nat.gcd_dvd_left l h)
        have hph : p ∣ h := hpd.trans (Nat.gcd_dvd_right l h)
        exact hnp p hp (by have := Nat.le_of_dvd hl hpl; omega) ⟨hpl, hph⟩
      · have hl1 : 1 ≤ (divOut l c l h acc).1 := divOut_one_le_l hc l l h acc hl
        have hdvd := divOut_dvd c l l h acc
        have hpost := divOut_post hc l l h acc hl (le_refl l)
        refine ih (c + 1) _ _ _ (by omega) hl1 ?_ ?_
        · have : (divOut l c l h acc).1 ≤ l := Nat.le_of_dvd hl hdvd.1
          omega
        · intro p hp hplt ⟨hpl, hph⟩
          rcases Nat.lt_or_ge p c with hlt | hge
          · exact hnp p hp hlt ⟨hpl.trans hdvd.1, hph.trans hdvd.2⟩
          · have hpc : p = c := by omega
            subst hpc
            exact hpost ⟨Nat.mod_eq_zero_of_dvd hpl, Nat.mod_eq_zero_of_dvd hph⟩
    · rename_i hnprime
      refine ih (c + 1) l h acc (by omega) hl (by omega) ?_
      intro p hp hplt hpd
      rcases Nat.lt_or_ge p c with hlt | hge
      · exact hnp p hp hlt hpd
      · have : p = c := by omega
        subst this
        exact absurd (isPrimeB_of_prime hp) (by simp [hnprime])

theorem one_le_gcd (a b : Nat) : 1 ≤ gcd a b :=
  gcdAux_one_le_acc (min a b + 2) 2 (min a b) (max a b) 1 (by omega) (le_refl 1)

theorem gcd_dvd (a b : Nat) : gcd a b ∣ a ∧ gcd a b ∣ b := by
  obtain ⟨h1, h2⟩ := gcdAux_inv (min a b + 2) 2 (min a b) (max a b) 1
  rw [Nat.mul_one] at h1 h2
  have hmin : gcd a b ∣ min a b := by
    have hdvd := dvd_mul_left (gcd a b)
      (gcdAux (min a b + 2) 2 (min a b) (max a b) 1).1
    simp only [gcd] at hdvd ⊢
    rwa [h1] at hdvd
  have hmax : gcd a b ∣ max a b := by
    have hdvd := dvd_mul_left (gcd a b)
      (gcdAux (min a b + 2) 2 (min a b) (max a b) 1).2.1
    simp only [gcd] at hdvd ⊢
    rwa [h2] at hdvd
  rcases Nat.le_total a b with hab | hab
  · rw [Nat.min_eq_left hab] at hmin
    rw [Nat.max_eq_right hab] at hmax
    exact ⟨hmin, hmax⟩
  · rw [Nat.min_eq_right hab] at hmin
    rw [Nat.max_eq_left hab] at hmax
    exact ⟨hmax, hmin⟩

theorem gcd_eq_nat_gcd {a b : Nat} (ha : 1 ≤ a) (hb : 1 ≤ b) :
    gcd a b = Nat.gcd a b := by
  have hlmin : 1 ≤ min a b := le_min ha hb
  have hinv := gcdAux_inv (min a b + 2) 2 (min a b) (max a b) 1
  have hcop := gcdAux_coprime (min a b + 2) 2 (min a b) (max a b) 1
    (by omega) hlmin (by omega)
    (fun p hp hlt _ => absurd hp.two_le (by omega))
  have hgcd : Nat.gcd (min a b) (max a b) = gcd a b := by
    calc Nat.gcd (min a b) (max a b)
        = Nat.gcd ((gcdAux (min a b + 2) 2 (min a b) (max a b) 1).1 *
            (gcdAux (min a b + 2) 2 (min a b) (max a b) 1).2.2)
          ((gcdAux (min a b + 2) 2 (min a b) (max a b) 1).2.1 *
            (gcdAux (min a b + 2) 2 (min a b) (max a b) 1).2.2) := by
          rw [hinv.1, hinv.2, Nat.mul_one, Nat.mul_one]
      _ = Nat.gcd (gcdAux (min a b + 2) 2 (min a b) (max a b) 1).1
            (gcdAux (min a b + 2) 2 (min a b) (max a b) 1).2.1 *
          (gcdAux (min a b + 2) 2 (min a b) (max a b) 1).2.2 := by
          rw [Nat.gcd_mul_right]
      _ = gcd a b := by rw [hcop, Nat.one_mul]; rfl
  rcases Nat.le_total a b with hab | hab
  · rw [Nat.min_eq_left hab, Nat.max_eq_right hab] at hgcd
    omega
  · rw [Nat.min_eq_right hab, Nat.max_eq_left hab] at hgcd
    rw [Nat.gcd_comm] at hgcd
    omega

theorem gcd_zero_left (n : Nat) : gcd 0 n = 1 := by
  have h2 : isPrimeB 2 = true := by decide
  simp [gcd, gcdAux, Nat.zero_min, h2]

theorem gcd_zero_right (n : Nat) : gcd n 0 = 1 := by
  have h2 : isPrimeB 2 = true := by decide
  simp [gcd, gcdAux, Nat.min_zero, h2]

/-! ## Lemmas about `normalize` -/

theorem gcd_cast_dvd (r : Rational) :
    ((gcd r.num.natAbs r.den.natAbs : Nat) : Int) ∣ r.num ∧
    ((gcd r.num.natAbs r.den.natAbs : Nat) : Int) ∣ r.den := by
  have h := gcd_dvd r.num.natAbs r.den.natAbs
  constructor
  · exact (Int.natCast_dvd_natCast.mpr h.1).trans (Int.natAbs_dvd.mpr dvd_rfl)
  · exact (Int.natCast_dvd_natCast.mpr h.2).trans (Int.natAbs_dvd.mpr dvd_rfl)

theorem normalize_of_num_eq_zero {r : Rational} (h : r.num = 0) :
    normalize r = r := by
  have hg : gcd r.num.natAbs r.den.natAbs = 1 := by
    rw [h]; simpa using gcd_zero_left r.den.natAbs
  simp [normalize, hg, Int.tdiv_one]

theorem normalize_of_den_eq_zero {r : Rational} (h : r.den = 0) :
    normalize r = r := by
  have hg : gcd r.num.natAbs r.den.natAbs = 1 := by
    rw [h]; simpa using gcd_zero_right r.num.natAbs
  simp [normalize, hg, Int.tdiv_one]

theorem normalize_idem (r : Rational) : normalize (normalize r) = normalize r := by
  by_cases hn : r.num = 0
  · rw [normalize_of_num_eq_zero hn, normalize_of_num_eq_zero hn]
  by_cases hd : r.den = 0
  · rw [normalize_of_den_eq_zero hd, normalize_of_den_eq_zero hd]
  have hA : 1 ≤ r.num.natAbs := Int.natAbs_pos.mpr hn
  have hB : 1 ≤ r.den.natAbs := Int.natAbs_pos.mpr hd
  set G : Nat := Nat.gcd r.num.natAbs r.den.natAbs with hGdef
  have hGpos : 0 < G := Nat.gcd_pos_of_pos_left _ hA
  have hGcode : gcd r.num.natAbs r.den.natAbs = G := gcd_eq_nat_gcd hA hB
  have hGZ : (G : Int) ≠ 0 := by exact_mod_cast Nat.pos_iff_ne_zero.mp hGpos
  obtain ⟨n₁, hn₁⟩ : (G : Int) ∣ r.num := by
    have h := (gcd_cast_dvd r).1
    rwa [hGcode] at h
  obtain ⟨d₁, hd₁⟩ : (G : Int) ∣ r.den := by
    have h := (gcd_cast_dvd r).2
    rwa [hGcode] at h
  have hnorm : normalize r = ⟨n₁, d₁⟩ := by
    simp only [normalize, hGcode]
    rw [hn₁, hd₁, Int.mul_tdiv_cancel_left _ hGZ, Int.mul_tdiv_cancel_left _ hGZ]
  rw [hnorm]
  have hAeq : r.num.natAbs = G * n₁.natAbs := by
    rw [hn₁, Int.natAbs_mul, Int.natAbs_ofNat]
  have hBeq : r.den.natAbs = G * d₁.natAbs := by
    rw [hd₁, Int.natAbs_mul, Int.natAbs_ofNat]
  have hn₁z : n₁ ≠ 0 := by
    intro hz; exact hn (by rw [hn₁, hz, Int.mul_zero])
  have hd₁z : d₁ ≠ 0 := by
    intro hz; exact hd (by rw [hd₁, hz, Int.mul_zero])
  have hcop : Nat.gcd n₁.natAbs d₁.natAbs = 1 := by
    have : G * Nat.gcd n₁.natAbs d₁.natAbs = G * 1 := by
      rw [← Nat.gcd_mul_left, ← hAeq, ← hBeq, ← hGdef, Nat.mul_one]
    exact Nat.eq_of_mul_eq_mul_left hGpos this
  have hg1 : gcd n₁.natAbs d₁.natAbs = 1 := by
    rw [gcd_eq_nat_gcd (Int.natAbs_pos.mpr hn₁z) (Int.natAbs_pos.mpr hd₁z), hcop]
  show normalize ⟨n₁, d₁⟩ = Rational.mk n₁ d₁
  simp [normalize, hg1, Int.tdiv_one]

/-! ## Lemmas about `tokenize` -/

theorem tokenize_length_bounds : ∀ (cs : List Char) (i : Nat) (cur : Option Rational)
    (p : List Rational) (o : List Op) (P : List Rational) (O : List Op),
    tokenize cs i cur p o = .ok (P, O) →
    p.length + 1 ≤ P.length ∧ P.length + o.length ≤ O.length + p.length + 1 ∧
    o.length ≤ O.length := by
  intro cs
  induction cs with
  | nil =>
    intro i cur p o P O h
    cases cur with
    | none => simp [tokenize] at h
    | some last =>
      simp only [tokenize, Except.ok.injEq, Prod.mk.injEq] at h
      obtain ⟨hP, hO⟩ := h
      subst hP; subst hO
      simp only [List.length_append, List.length_singleton]
      omega
  | cons c cs ih =>
    intro i cur p o P O h
    simp only [tokenize] at h
    split at h
    · exact ih _ _ _ _ _ _ h
    · split at h
      · have hb := ih _ _ _ _ _ _ h
        have hct : cur.toList.length ≤ 1 := by cases cur <;> simp
        simp only [List.length_append, List.length_singleton] at hb ⊢
        omega
      · split at h
        · exact ih _ _ _ _ _ _ h
        · exact absurd h (by simp)

/-! ## The claims -/

/-- Claim C1: for Rationals `a`, `b` with nonzero denominators, `add`
computes `(a.num*b.den + b.num*a.den, a.den*b.den)` and then normalizes,
never fails, and the result equals — by cross-multiplication — the reduction
of that raw pair by its GCD. -/
theorem claim_C1_add_cross_mul (a b : Rational) (ha : a.den ≠ 0) (hb : b.den ≠ 0) :
    add a b = normalize ⟨a.num * b.den + b.num * a.den, a.den * b.den⟩ ∧
    (add a b).num * ((a.den * b.den).tdiv
        (((a.num * b.den + b.num * a.den).gcd (a.den * b.den) : Nat) : Int)) =
    ((a.num * b.den + b.num * a.den).tdiv
        (((a.num * b.den + b.num * a.den).gcd (a.den * b.den) : Nat) : Int)) *
      (add a b).den := by
  refine ⟨rfl, ?_⟩
  set n : Int := a.num * b.den + b.num * a.den with hn
  set d : Int := a.den * b.den with hd
  have hdz : d ≠ 0 := mul_ne_zero ha hb
  set G : Nat := n.gcd d with hG
  have hGz : (G : Int) ≠ 0 := by
    simp only [hG, ne_eq, Int.natCast_eq_zero, Int.gcd_eq_zero_iff]
    intro hc
    exact hdz hc.2
  set g : Nat := gcd n.natAbs d.natAbs with hg
  have hgz : (g : Int) ≠ 0 := by
    have := one_le_gcd n.natAbs d.natAbs
    simp only [hg, ne_eq, Int.natCast_eq_zero]
    omega
  have hadd : add a b = ⟨n.tdiv g, d.tdiv g⟩ := rfl
  obtain ⟨n₁, hn₁⟩ : (g : Int) ∣ n := (gcd_cast_dvd ⟨n, d⟩).1
  obtain ⟨d₁, hd₁⟩ : (g : Int) ∣ d := (gcd_cast_dvd ⟨n, d⟩).2
  obtain ⟨n₂, hn₂⟩ : (G : Int) ∣ n := Int.gcd_dvd_left
  obtain ⟨d₂, hd₂⟩ : (G : Int) ∣ d := Int.gcd_dvd_right
  rw [hadd]
  show n.tdiv g * d.tdiv G = n.tdiv G * d.tdiv g
  have htn1 : n.tdiv g = n₁ := by rw [hn₁, Int.mul_tdiv_cancel_left _ hgz]
  have htd1 : d.tdiv g = d₁ := by rw [hd₁, Int.mul_tdiv_cancel_left _ hgz]
  have htn2 : n.tdiv G = n₂ := by rw [hn₂, Int.mul_tdiv_cancel_left _ hGz]
  have htd2 : d.tdiv G = d₂ := by rw [hd₂, Int.mul_tdiv_cancel_left _ hGz]
  rw [htn1, htd1, htn2, htd2]
  have key : ((g : Int) * G) * (n₁ * d₂) = ((g : Int) * G) * (n₂ * d₁) := by
    have e1 : ((g : Int) * G) * (n₁ * d₂) = ((g : Int) * n₁) * ((G : Int) * d₂) := by
      ring
    have e2 : ((g : Int) * G) * (n₂ * d₁) = ((G : Int) * n₂) * ((g : Int) * d₁) := by
      ring
    rw [e1, e2, ← hn₁, ← hd₂, ← hn₂, ← hd₁]
  exact mul_left_cancel₀ (mul_ne_zero hgz hGz) key

/-- Claim C1, witness: the theorem instantiated at `1/2 + 1/3`
(raw pair `(5, 6)`, GCD 1). -/
theorem claim_C1_witness :
    add ⟨1, 2⟩ ⟨1, 3⟩ = normalize ⟨5, 6⟩ ∧
    (add ⟨1, 2⟩ ⟨1, 3⟩).num * ((6 : Int).tdiv (((5 : Int).gcd 6 : Nat) : Int)) =
    ((5 : Int).tdiv (((5 : Int).gcd 6 : Nat) : Int)) * (add ⟨1, 2⟩ ⟨1, 3⟩).den := by
  exact claim_C1_add_cross_mul ⟨1, 2⟩ ⟨1, 3⟩ (by decide) (by decide)

/-- Claim C2: phase 2 processes the `{divide, multiply}` tier before the
`{add, subtract}` tier, left-to-right, splicing each result in place of its
two operands; `run_expr "6/3*2"` gives `6/3 = 2`, then `2*2 = 4`,
displayed `"4"`. -/
theorem claim_C2_precedence_order :
    OP_PRECEDENCE = [[Op.slash, Op.star], [Op.plus, Op.min]] ∧
    runTier [Op.slash, Op.star] 3 0 [Op.slash, Op.star] [⟨6, 1⟩, ⟨3, 1⟩, ⟨2, 1⟩] =
      some (.ok ([], [⟨4, 1⟩])) ∧
    run_expr "6/3*2".toList = some (.ok ⟨4, 1⟩) ∧
    display ⟨4, 1⟩ = "4" :=
  ⟨rfl, rfl, rfl, rfl⟩

/-- Claim C3: each digit is *added* into the accumulator (no multiplication
by 10), so `"23"` accumulates to `2 + 3 = 5`; `run_expr "23+4"` tokenizes to
operands `[5, 4]` with operator `+` and evaluates to `9`, displayed `"9"`. -/
theorem claim_C3_digit_accumulation :
    addAssignNat (addAssignNat ⟨0, 1⟩ 2) 3 = ⟨5, 1⟩ ∧
    tokenize "23+4".toList 0 none [] [] = .ok ([⟨5, 1⟩, ⟨4, 1⟩], [Op.plus]) ∧
    run_expr "23+4".toList = some (.ok ⟨9, 1⟩) ∧
    display ⟨9, 1⟩ = "9" :=
  ⟨rfl, rfl, rfl, rfl⟩

/-- Claim C4: `checked_div a b` returns the `DivisionByZero` error iff
`b.num = 0`, and otherwise returns exactly the raw division `a / b`; the
evaluator on `"1/0"` (right operand tokenizing to `Rational(0, 1)`) fails
with the division-by-zero error. -/
theorem claim_C4_checked_div_iff :
    (∀ a b : Rational,
      checked_div a b = some (.error .divisionByZero) ↔ b.num = 0) ∧
    (∀ a b : Rational, b.num ≠ 0 → checked_div a b = (ratDiv a b).map Except.ok) ∧
    tokenize "1/0".toList 0 none [] [] = .ok ([⟨1, 1⟩, ⟨0, 1⟩], [Op.slash]) ∧
    run_expr "1/0".toList = some (.error .divisionByZero) := by
  refine ⟨?_, ?_, rfl, rfl⟩
  · intro a b
    constructor
    · intro h
      by_contra hbz
      rw [checked_div, if_neg hbz] at h
      cases hr : ratDiv a b with
      | none => rw [hr] at h; simp at h
      | some v => rw [hr] at h; simp at h
    · intro h
      rw [checked_div, if_pos h]
  · intro a b hbz
    rw [checked_div, if_neg hbz]

/-- Claim C5, counterexample: `Rational(-7, 2)` displays as `"-3-1/2"`
(truncating division: `-7/2 = -3`, `-7%2 = -1`), not `"-4-1/2"` as the
claim states. -/
theorem claim_C5_counterexample :
    display ⟨-7, 2⟩ = "-3-1/2" ∧ display ⟨-7, 2⟩ ≠ "-4-1/2" :=
  ⟨rfl, by decide⟩

/-- Claim C5 as amended: display renders the numerator plainly when the
denominator is 1, the negated numerator when it is -1, and otherwise the
concatenation of the truncating quotient, the truncating remainder (sign of
the numerator), a slash, and the denominator; `Rational(7, 2)` displays as
`"31/2"` and `Rational(-7, 2)` as `"-3-1/2"`. -/
theorem claim_C5_display_format :
    (∀ r : Rational,
      (r.den = 1 → display r = toString r.num) ∧
      (r.den = -1 → display r = toString (-r.num)) ∧
      (r.den ≠ 1 → r.den ≠ -1 → display r =
        toString (r.num.tdiv r.den) ++ toString (r.num.tmod r.den) ++ "/"
          ++ toString r.den)) ∧
    display ⟨7, 2⟩ = "31/2" ∧ display ⟨-7, 2⟩ = "-3-1/2" := by
  refine ⟨fun r => ⟨?_, ?_, ?_⟩, rfl, rfl⟩
  · intro h1
    rw [display, if_pos h1]
  · intro hm1
    rw [display, if_neg (by rw [hm1]; decide), if_pos hm1]
  · intro h1 hm1
    rw [display, if_neg h1, if_neg hm1]

/-- Claim C5 witness: the amended theorem's general branch instantiated at
`Rational(7, 2)`. -/
theorem claim_C5_witness :
    display ⟨7, 2⟩ = toString ((7 : Int).tdiv 2) ++ toString ((7 : Int).tmod 2)
      ++ "/" ++ toString (2 : Int) :=
  ((claim_C5_display_format.1 ⟨7, 2⟩).2.2 (by decide) (by decide))

/-- Claim C6, counterexample: `gcd(0, 6)` is 1, not 6: with `lowest = 0` the
loop breaks at the very first prime, leaving the accumulator at 1. -/
theorem claim_C6_counterexample : gcd 0 6 = 1 ∧ (1 : Nat) ≠ 6 :=
  ⟨rfl, by decide⟩

/-- Claim C6 as amended: for every `n`, `gcd(0, n) = 1` and `gcd(n, 0) = 1`
(not `n`): the break condition `lowest / i < 1` holds immediately when the
smaller argument is 0. -/
theorem claim_C6_gcd_zero : ∀ n : Nat, gcd 0 n = 1 ∧ gcd n 0 = 1 :=
  fun n => ⟨gcd_zero_left n, gcd_zero_right n⟩

/-- Claim C7, counterexample: dividing `Rational(1, 2)` by the plain integer
0 does *not* reach the fatal fault — it returns the value `Rational(1, 0)`;
the fault (the panic of rational-by-rational division) is reached when that
zero-denominator value is later used as a divisor. -/
theorem claim_C7_counterexample :
    divInt ⟨1, 2⟩ 0 = ⟨1, 0⟩ ∧ ratDiv ⟨1, 1⟩ (divInt ⟨1, 2⟩ 0) = none :=
  ⟨rfl, rfl⟩

/-- Claim C7 as amended: the plain-integer division overload never faults —
dividing by integer 0 yields `normalize (num, den * 0)`, a Rational with
denominator 0; the fatal zero-denominator fault belongs to
rational-by-rational division, which faults exactly when the divisor's
denominator is 0, a path `checked_div` also reaches when the divisor has
nonzero numerator and zero denominator. -/
theorem claim_C7_div_fault_paths :
    (∀ (r : Rational) (i : Int), divInt r i = normalize ⟨r.num, r.den * i⟩) ∧
    (∀ r : Rational, (divInt r 0).den = 0) ∧
    (∀ a b : Rational, ratDiv a b = none ↔ b.den = 0) ∧
    (∀ a b : Rational, b.den = 0 → b.num ≠ 0 → checked_div a b = none) := by
  refine ⟨fun r i => rfl, ?_, ?_, ?_⟩
  · intro r
    show (normalize ⟨r.num, r.den * 0⟩).den = 0
    rw [Int.mul_zero, normalize_of_den_eq_zero rfl]
  · intro a b
    constructor
    · intro h
      by_contra hbz
      rw [ratDiv, if_neg hbz] at h
      simp at h
    · intro h
      rw [ratDiv, if_pos h]
  · intro a b hden hnum
    rw [checked_div, if_neg hnum, ratDiv, if_pos hden]
    rfl

/-- Claim C8, counterexample: tokenizing `"+3"` succeeds with one operand
and one operator (1 ≠ 1 + 1), so the claimed operand-count invariant fails;
evaluating that token stream then panics (index out of bounds). -/
theorem claim_C8_counterexample :
    tokenize "+3".toList 0 none [] [] = .ok ([⟨3, 1⟩], [Op.plus]) ∧
    ([(⟨3, 1⟩ : Rational)].length ≠ [Op.plus].length + 1) ∧
    run_expr "+3".toList = none :=
  ⟨rfl, by decide, rfl⟩

/-- Claim C8 as amended: on every input whose tokenizing succeeds, the
operand count is at least 1 and at most one more than the operator count
(equality can fail, e.g. for a leading operator); an input with no trailing
operand, such as the empty line, is reported as the invalid-expression
error. -/
theorem claim_C8_token_count_bounds :
    (∀ (cs : List Char) (P : List Rational) (O : List Op),
      tokenize cs 0 none [] [] = .ok (P, O) →
      1 ≤ P.length ∧ P.length ≤ O.length + 1) ∧
    tokenize [] 0 none [] [] = .error .invalidExpr := by
  refine ⟨?_, rfl⟩
  intro cs P O h
  have hb := tokenize_length_bounds cs 0 none [] [] P O h
  simp only [List.length_nil] at hb
  omega

/-- Claim C8 witness: the amended bound instantiated on the input `"3"`,
which tokenizes to one operand and no operator. -/
theorem claim_C8_witness : 1 ≤ ([(⟨3, 1⟩ : Rational)] : List Rational).length ∧
    ([(⟨3, 1⟩ : Rational)] : List Rational).length ≤ ([] : List Op).length + 1 :=
  claim_C8_token_count_bounds.1 "3".toList [⟨3, 1⟩] [] rfl

/-- Claim C9: normalization is idempotent —
`normalize (normalize r) = normalize r` for every Rational `r`,
component-wise. -/
theorem claim_C9_normalize_idempotent :
    ∀ r : Rational, normalize (normalize r) = normalize r :=
  normalize_idem

/-- Claim C10: `gcd` returns at least 1 on all inputs, zeros included, so
`normalize` never divides by zero and is total on every Rational, including
numerator 0 and denominator 0. -/
theorem claim_C10_gcd_positive :
    (∀ a b : Nat, 1 ≤ gcd a b) ∧
    (∀ r : Rational, ((gcd r.num.natAbs r.den.natAbs : Nat) : Int) ≠ 0 ∧
      normalize r = ⟨r.num.tdiv ((gcd r.num.natAbs r.den.natAbs : Nat) : Int),
        r.den.tdiv ((gcd r.num.natAbs r.den.natAbs : Nat) : Int)⟩) := by
  refine ⟨one_le_gcd, fun r => ⟨?_, rfl⟩⟩
  have := one_le_gcd r.num.natAbs r.den.natAbs
  simp only [ne_eq, Int.natCast_eq_zero]
  omega

end RatioCalc
